import Mathlib

/-!
Verification development for the xref scraper pipeline (src/scraper.ts).

The pipeline reads webref definition ("dfn") files, maps each definition and
each of its linking-text aliases to a normalized record, filters to exported
records of supported kinds, deduplicates, and aggregates the records into a
term-keyed index and a spec-keyed index.  This file is a shallow embedding of
that transformation logic:

* JavaScript strings are Lean `String`s; the string operations used by the
  source (`String.prototype.replace` with a string pattern, the regexes
  `/^"|"$/g` and `/\(.+\)/`, `endsWith`) are embedded as explicit functions on
  the underlying `List Char`.
* The mutable `errorURIs` array threaded through `parseData` is embedded by
  explicit state passing: `parseData` returns the (possibly extended) list.
* The two mutable index objects (`dataByTerm`, `dataBySpec`) are embedded as
  total functions `String → List _` (absent key = empty list), updated
  pointwise; `if (!data[k]) data[k] = []; data[k].push(v)` becomes appending
  to the list at key `k`.
* `SUPPORTED_TYPES` and `CSS_TYPES_INPUT` live in src/constants.ts, which is
  not part of the sources given; the definitions below are parameterized by
  two arbitrary membership predicates `supportedTypes` and `cssTypesInput`,
  since none of the verified properties depends on their concrete contents.
-/

/-- JavaScript string prefix test on the character-list representation:
`leadsWith p l` holds when `p` is an initial segment of `l`. -/
def leadsWith : List Char → List Char → Bool
  | [], _ => true
  | _ :: _, [] => false
  | p :: ps, c :: cs => p = c && leadsWith ps cs

/-- Split a character list around the first occurrence of the pattern `pat`:
returns `some (before, after)` where `before ++ pat ++ after` is the input and
`before` contains no earlier occurrence, or `none` when `pat` does not occur.
This is the search underlying JavaScript `String.prototype.replace` with a
plain-string pattern, which replaces only the first occurrence. -/
def splitFirst (pat : List Char) : List Char → Option (List Char × List Char)
  | [] => if leadsWith pat [] then some ([], []) else none
  | c :: rest =>
    if leadsWith pat (c :: rest) then some ([], (c :: rest).drop pat.length)
    else
      match splitFirst pat rest with
      | some (b, a) => some (c :: b, a)
      | none => none

/-- Embedding of JavaScript `s.replace(pat, '')` for a plain-string pattern
`pat`: remove the first occurrence of `pat` from `s`, or return `s` unchanged
when `pat` does not occur.  Used by `mapDefinition` for
`dfn.href.replace(specurl, '')`. -/
def replaceFirstEmpty (s pat : String) : String :=
  match splitFirst pat.data s.data with
  | some (b, a) => ⟨b ++ a⟩
  | none => s

/-- Characters that the JavaScript regex metacharacter `.` does not match
(line terminators). -/
def isLineTerminator (c : Char) : Bool :=
  c = '\n' || c = '\r' || c = Char.ofNat 0x2028 || c = Char.ofNat 0x2029

/-- Index of the last occurrence of `c` in `l`, if any. -/
def lastIdxOf (c : Char) : List Char → Option Nat
  | [] => none
  | a :: rest =>
    match lastIdxOf c rest with
    | some k => some (k + 1)
    | none => if a = c then some 0 else none

/-- Leftmost-greedy match of the JavaScript regex `/\(.+\)/` on a character
list. Returns `some (before, after)` where the input is
`before ++ '(' :: args ++ ')' :: after` with `args` nonempty and free of line
terminators, the `'('` is the first viable opening parenthesis, and the `')'`
is the last one reachable from it through non-line-terminator characters
(greedy `.+`).  Returns `none` when the regex does not match.  The helper
`consMatch` re-prefixes the scanned character onto the before-part when the
match starts strictly later (the regex engine advancing its start
position). -/
def consMatch (c : Char) :
    Option (List Char × List Char) → Option (List Char × List Char)
  | some (b, a) => some (c :: b, a)
  | none => none

/-- See `consMatch` above: leftmost-greedy match of `/\(.+\)/`. -/
def findMethodMatch : List Char → Option (List Char × List Char)
  | [] => none
  | c :: rest =>
    if c = '(' then
      match lastIdxOf ')' (rest.takeWhile (fun d => !isLineTerminator d)) with
      | some p =>
        if 1 ≤ p then some ([], rest.drop (p + 1))
        else consMatch c (findMethodMatch rest)
      | none => consMatch c (findMethodMatch rest)
    else consMatch c (findMethodMatch rest)

/-- Embedding of `/\(.+\)/.test(term)` from `updateDataByTerm`. -/
def methodReTest (s : String) : Bool :=
  (findMethodMatch s.data).isSome

/-- Embedding of `term.replace(/\(.+\)/, '()')` from `updateDataByTerm`:
collapse the (greedy, leftmost) parenthesized argument list to `()`. -/
def methodReplaceArgs (s : String) : String :=
  match findMethodMatch s.data with
  | some (b, a) => ⟨b ++ '(' :: ')' :: a⟩
  | none => s

/-- Removal of the match of `^"` in the regex `/^"|"$/g`: drop one leading
double-quote character if present. -/
def dropLeadingQuote (l : List Char) : List Char :=
  if l.head? = some '"' then l.tail else l

/-- Removal of the match of `"$` in the regex `/^"|"$/g`: drop one trailing
double-quote character if present. -/
def dropTrailingQuote (l : List Char) : List Char :=
  if l.getLast? = some '"' then l.dropLast else l

/-- Embedding of `term.replace(/^"|"$/g, '')` from `normalizeTerm`.  The
global regex removes the match of `^"` (at most one leading quote) and the
match of `"$` (at most one trailing quote); the two matches can only overlap
on the one-character string `"`, where both orders of removal give the empty
string, so sequential removal is an exact embedding. -/
def enumValueStrip (s : String) : String :=
  ⟨dropTrailingQuote (dropLeadingQuote s.data)⟩

/-- Embedding of JavaScript `term.endsWith(')')`. -/
def endsWithParen (s : String) : Bool :=
  s.data.getLast? = some ')'

/-- Embedding of `normalizeTerm` (src/scraper.ts lines 189-197): enum values
lose one layer of surrounding double quotes; method names not ending in `)`
get `()` appended; every other term is returned unchanged. -/
def normalizeTerm (term type : String) : String :=
  if type = "enum-value" then enumValueStrip term
  else if type = "method" && !endsWithParen term then term ++ "()"
  else term

/-- Contract of the Term Normalizer as worded by the spec (section 4.1): for
`enum-value`, strip one leading and one trailing double-quote character if
present; for `method`, append `"()"` unless the term already ends with `)`;
otherwise return the term unchanged.  Stated with take/drop primitives,
independently of the regex embedding above, for the refinement proof. -/
def normalizeSpec (term kind : String) : String :=
  if kind = "enum-value" then
    let l := term.data
    let l := if l.take 1 = ['"'] then l.drop 1 else l
    let l := if l.reverse.take 1 = ['"'] then (l.reverse.drop 1).reverse else l
    ⟨l⟩
  else if kind = "method" then
    if term.data.getLast? = some ')' then term else term ++ "()"
  else term


/-- Input record of one webref definition (interface `WebrefDfn` in
src/scraper.ts; the spec calls it RawDefinition).  The `heading` object is
never consumed by the pipeline and is embedded as `Unit`; the JavaScript
field name `for` is a Lean keyword and is written `«for»`. -/
structure WebrefDfn where
  id : String
  href : String
  linkingText : List String
  localLinkingText : List String
  type : String
  «for» : List String
  access : String
  informative : Bool
  heading : Unit
  definedIn : String
deriving DecidableEq, Repr

/-- One specification's definition source (interface `DfnSource`; the spec
calls it SourceUnit): series shortname, spec shortname, nightly base URL and
the raw definitions. -/
structure DfnSource where
  series : String
  spec : String
  url : String
  dfns : List WebrefDfn
deriving DecidableEq, Repr

/-- Output record of `mapDefinition` (type `ParsedDataEntry`; the spec calls
it NormalizedRecord), with fields in the source's construction order.  The
`for` field is `none` when the raw scope list is empty (the source stores
`undefined`, which JSON serialization omits). -/
structure ParsedEntry where
  term : String
  isExported : Bool
  type : String
  spec : String
  shortname : String
  status : String
  uri : String
  normative : Bool
  «for» : Option (List String)
deriving DecidableEq, Repr

/-- A term-index entry: a `ParsedEntry` minus the `term` and `isExported`
fields removed by the destructuring in `updateDataByTerm`. -/
structure TermEntry where
  type : String
  spec : String
  shortname : String
  status : String
  uri : String
  normative : Bool
  «for» : Option (List String)
deriving DecidableEq, Repr

/-- A spec-index entry: a `ParsedEntry` minus the `shortname` and
`isExported` fields removed by the destructuring in `updateDataBySpec`. -/
structure SpecEntry where
  term : String
  type : String
  spec : String
  status : String
  uri : String
  normative : Bool
  «for» : Option (List String)
deriving DecidableEq, Repr

/-- Rest-projection `{ term, isExported, ...termData }` from
`updateDataByTerm`. -/
def stripTerm (e : ParsedEntry) : TermEntry :=
  { type := e.type, spec := e.spec, shortname := e.shortname,
    status := e.status, uri := e.uri, normative := e.normative,
    «for» := e.«for» }

/-- Rest-projection `{ shortname, isExported, ...termData }` from
`updateDataBySpec`. -/
def stripSpec (e : ParsedEntry) : SpecEntry :=
  { term := e.term, type := e.type, spec := e.spec,
    status := e.status, uri := e.uri, normative := e.normative,
    «for» := e.«for» }

/-- Kind remapping from `mapDefinition`: a raw type in `CSS_TYPES_INPUT` is
prefixed with `css-`.  The membership predicate is a parameter because
src/constants.ts is not among the given sources. -/
def remapKind (cssTypesInput : String → Bool) (t : String) : String :=
  if cssTypesInput t then "css-" ++ t else t

/-- Embedding of `mapDefinition` (src/scraper.ts lines 153-166).  Note that
the mutable `errorURIs` list is not a parameter: the source function never
receives or touches it, and `dfn.href.replace(specurl, '')` silently removes
the first occurrence of the base URL (or leaves the href unchanged when it
does not occur). -/
def mapDefinition (cssTypesInput : String → Bool) (dfn : WebrefDfn)
    (term spec series specurl : String) : ParsedEntry :=
  let normalizedType := remapKind cssTypesInput dfn.type
  { term := normalizeTerm term normalizedType,
    isExported := dfn.access == "public",
    type := normalizedType,
    spec := spec,
    shortname := series,
    status := "current",
    uri := replaceFirstEmpty dfn.href specurl,
    normative := !dfn.informative,
    «for» := if dfn.«for».length > 0 then some dfn.«for» else none }

/-- Modelled from the spec: `uniq` from src/utils.ts is not among the given
sources; section 4.3 specifies it as deduplication by full structural
equality with the order of first occurrences preserved.  `uniqAux seen l`
keeps each element of `l` not already in `seen`, remembering kept elements. -/
def uniqAux {α : Type} [DecidableEq α] (seen : List α) : List α → List α
  | [] => []
  | a :: l => if a ∈ seen then uniqAux seen l else a :: uniqAux (a :: seen) l

/-- Modelled from the spec: first-occurrence deduplication (see `uniqAux`). -/
def uniq {α : Type} [DecidableEq α] (l : List α) : List α :=
  uniqAux [] l

/-- First-occurrence deduplication as worded by the spec (section 4.3): keep
the head, delete its later duplicates, recurse.  Used to characterize `uniq`
in the dedup theorem. -/
def keepFirsts {α : Type} [DecidableEq α] : List α → List α
  | [] => []
  | a :: l => a :: keepFirsts (l.filter (fun b => b ≠ a))
termination_by l => l.length
decreasing_by
  simp only [List.length_cons]
  exact Nat.lt_succ_of_le (List.length_filter_le _ l)

section Pipeline

variable (supportedTypes cssTypesInput : String → Bool)

/-- The double loop of `parseData`: one mapped record per
(definition, linking-text alias) pair, in source order. -/
def mappedRecords (source : DfnSource) : List ParsedEntry :=
  source.dfns.flatMap fun dfn =>
    dfn.linkingText.map fun term =>
      mapDefinition cssTypesInput dfn term source.spec source.series source.url

/-- The export/supported-kind filter of `parseData` (src/scraper.ts lines
146-148). -/
def filteredRecords (source : DfnSource) : List ParsedEntry :=
  (mappedRecords cssTypesInput source).filter fun t =>
    t.isExported && supportedTypes t.type

/-- Embedding of `parseData` (src/scraper.ts lines 136-151).  The mutable
`errorURIs` parameter becomes explicit state: the returned list is the sink
after the call.  The source body never pushes to `errorURIs`, so the sink is
returned unchanged. -/
def parseData (source : DfnSource) (errorURIs : List String) :
    List ParsedEntry × List String :=
  (uniq (filteredRecords supportedTypes cssTypesInput source), errorURIs)

end Pipeline

/-- The term-keyed index (`DataByTerm`), embedded as a total function with
empty default. -/
abbrev TermMap := String → List TermEntry

/-- The spec-keyed index (`DataBySpec`), embedded as a total function with
empty default. -/
abbrev SpecMap := String → List SpecEntry

/-- The JavaScript pattern `if (!data[k]) data[k] = []; data[k].push(v)`:
append `v` to the list at key `k`. -/
def pushKey {α : Type} (m : String → List α) (k : String) (v : α) :
    String → List α :=
  fun s => if s = k then m s ++ [v] else m s

/-- One iteration of the loop in `updateDataByTerm` (src/scraper.ts lines
168-180): always push under the exact term; additionally, for a method term
matching `/\(.+\)/`, push the same data under the term with the argument
list collapsed to `()`. -/
def termStep (m : TermMap) (e : ParsedEntry) : TermMap :=
  let m1 := pushKey m e.term (stripTerm e)
  if e.type == "method" && methodReTest e.term then
    pushKey m1 (methodReplaceArgs e.term) (stripTerm e)
  else m1

/-- Embedding of `updateDataByTerm`. -/
def updateDataByTerm (terms : List ParsedEntry) (m : TermMap) : TermMap :=
  terms.foldl termStep m

/-- One iteration of the loop in `updateDataBySpec` (src/scraper.ts lines
182-187): push the record minus `shortname`/`isExported` under the record's
`shortname` field (which `mapDefinition` sets to the series shortname). -/
def specStep (m : SpecMap) (e : ParsedEntry) : SpecMap :=
  pushKey m e.shortname (stripSpec e)

/-- Embedding of `updateDataBySpec`. -/
def updateDataBySpec (terms : List ParsedEntry) (m : SpecMap) : SpecMap :=
  terms.foldl specStep m

/-- One entry of the spec-metadata artifact built by `getSpecsData`. -/
structure SpecMeta where
  url : String
  title : String
  shortname : String
deriving DecidableEq, Repr

/-- The spec-metadata map artifact. -/
abbrev SpecMetaMap := String → Option SpecMeta

/-- Outcome of one pipeline run past the update-check gate: either a fatal
abort carrying the accumulated URI errors (`process.exit(1)`, nothing
written) or the three artifacts written. -/
inductive RunOutcome where
  | fatal (errorURIs : List String)
  | wrote (byTerm : TermMap) (bySpec : SpecMap) (specMap : SpecMetaMap)

section Driver

variable (supportedTypes cssTypesInput : String → Bool)

/-- One iteration of the processing loop of `main` (src/scraper.ts lines
74-83): parse one source and feed the result to both aggregators, threading
the error sink. -/
def driverStep (acc : TermMap × SpecMap × List String) (source : DfnSource) :
    TermMap × SpecMap × List String :=
  let r := parseData supportedTypes cssTypesInput source acc.2.2
  (updateDataByTerm r.1 acc.1, updateDataBySpec r.1 acc.2.1, r.2)

/-- The processing loop of `main` (src/scraper.ts lines 70-83): fold every
source through `parseData` and both aggregators, starting from empty indexes
and an empty error list. -/
def processSources (sources : List DfnSource) :
    TermMap × SpecMap × List String :=
  sources.foldl (driverStep supportedTypes cssTypesInput)
    (fun _ => [], fun _ => [], [])

/-- The tail of `main` (src/scraper.ts lines 85-97): with the accumulated
`errorURIs` in hand, abort fatally when the list is nonempty, otherwise
write the three artifacts. -/
def finishRun (errorURIs : List String) (byTerm : TermMap) (bySpec : SpecMap)
    (specMap : SpecMetaMap) : RunOutcome :=
  if errorURIs.length ≠ 0 then .fatal errorURIs
  else .wrote byTerm bySpec specMap

/-- The post-gate part of `main`: process all sources, then finish. -/
def runPipeline (sources : List DfnSource) (specMap : SpecMetaMap) :
    RunOutcome :=
  let acc := processSources supportedTypes cssTypesInput sources
  finishRun acc.2.2 acc.1 acc.2.1 specMap

end Driver

/-! ## Helper lemmas about the Term Normalizer -/

theorem take_one_eq_singleton {α : Type} (m : List α) (a : α) :
    m.take 1 = [a] ↔ m.head? = some a := by
  cases m <;> simp

theorem dropLeadingQuote_eq_take (l : List Char) :
    dropLeadingQuote l = if l.take 1 = ['"'] then l.drop 1 else l := by
  by_cases h : l.head? = some '"' <;>
    simp [dropLeadingQuote, take_one_eq_singleton, h, List.drop_one]

theorem dropTrailingQuote_eq_reverse (l : List Char) :
    dropTrailingQuote l =
      if l.reverse.take 1 = ['"'] then (l.reverse.drop 1).reverse else l := by
  by_cases h : l.getLast? = some '"' <;>
    simp [dropTrailingQuote, take_one_eq_singleton, List.head?_reverse, h,
      List.drop_one, List.tail_reverse]

theorem dropLeadingQuote_eq_self (l : List Char) (h : l.head? ≠ some '"') :
    dropLeadingQuote l = l := by
  simp [dropLeadingQuote, h]

theorem dropTrailingQuote_eq_self (l : List Char) (h : l.getLast? ≠ some '"') :
    dropTrailingQuote l = l := by
  simp [dropTrailingQuote, h]

/-- The normalized term of a non-quote-delimited string is itself. -/
theorem enumValueStrip_eq_self (s : String) (h1 : s.data.head? ≠ some '"')
    (h2 : s.data.getLast? ≠ some '"') : enumValueStrip s = s := by
  unfold enumValueStrip
  rw [dropLeadingQuote_eq_self _ h1, dropTrailingQuote_eq_self _ h2]

/-- A term produced by the method branch ends with a closing parenthesis. -/
theorem endsWithParen_append_parens (t : String) :
    endsWithParen (t ++ "()") = true := by
  unfold endsWithParen
  rw [String.data_append]
  rw [List.getLast?_append_of_ne_nil _ (by decide)]
  rfl

/-- A string whose edge characters carry no double quote. -/
def noEdgeQuote (s : String) : Prop :=
  s.data.head? ≠ some '"' ∧ s.data.getLast? ≠ some '"'

/-- Case analysis for the empty normalization result of the enum-value
branch. -/
theorem strip_eq_nil (l : List Char)
    (h : dropTrailingQuote (dropLeadingQuote l) = []) :
    l = [] ∨ l = ['"'] ∨ l = ['"', '"'] := by
  match l with
  | [] => exact Or.inl rfl
  | [c] =>
    by_cases hc : c = '"'
    · exact Or.inr (Or.inl (by rw [hc]))
    · exfalso
      simp [dropLeadingQuote, dropTrailingQuote, hc] at h
  | [c, d] =>
    by_cases hc : c = '"'
    · subst hc
      by_cases hd : d = '"'
      · exact Or.inr (Or.inr (by rw [hd]))
      · exfalso
        simp [dropLeadingQuote, dropTrailingQuote, hd] at h
    · exfalso
      by_cases hd : d = '"' <;>
        simp [dropLeadingQuote, dropTrailingQuote, hc, hd] at h
  | c :: d :: e :: rest =>
    exfalso
    have h1 : (dropLeadingQuote (c :: d :: e :: rest)).length ≥ 2 := by
      unfold dropLeadingQuote
      split <;> simp
    have h2 : (dropTrailingQuote (dropLeadingQuote (c :: d :: e :: rest))).length ≥ 1 := by
      unfold dropTrailingQuote
      split
      · rw [List.length_dropLast]
        omega
      · omega
    rw [h] at h2
    simp at h2

/-- The Term Normalizer agrees everywhere with the spec's wording of its
contract. -/
theorem normalizeTerm_eq_normalizeSpec (t k : String) :
    normalizeTerm t k = normalizeSpec t k := by
  unfold normalizeTerm normalizeSpec
  by_cases hk : k = "enum-value"
  · simp only [hk, if_pos]
    unfold enumValueStrip
    rw [dropLeadingQuote_eq_take, dropTrailingQuote_eq_reverse]
  · by_cases hm : k = "method"
    · simp only [hk, hm, endsWithParen]
      by_cases hp : t.data.getLast? = some ')' <;> simp [hp]
    · simp [hk, hm]

/-- C5 (confirmed): the Normalizer satisfies its contract: for
`enum-value` it strips one leading and one trailing double quote if present,
for `method` it appends `()` exactly when the term does not already end in
`)`, and every other kind leaves the term unchanged; in particular the four
example equations of the claim hold. -/
theorem normalizeTerm_meets_contract :
    (∀ term kind, normalizeTerm term kind = normalizeSpec term kind) ∧
    normalizeTerm "\"foo\"" "enum-value" = "foo" ∧
    normalizeTerm "foo" "enum-value" = "foo" ∧
    normalizeTerm "bar" "method" = "bar()" ∧
    normalizeTerm "bar()" "method" = "bar()" :=
  ⟨normalizeTerm_eq_normalizeSpec, by decide, by decide, by decide, by decide⟩

/-- C3 (counterexample): normalization is not idempotent.  For the
enum-value term consisting of three double-quote characters, one application
strips the outer quotes leaving a single quote, and a second application
strips that quote as well. -/
theorem normalizeTerm_not_idempotent :
    ¬ (normalizeTerm (normalizeTerm "\"\"\"" "enum-value") "enum-value" =
        normalizeTerm "\"\"\"" "enum-value") := by
  decide

/-- C3 (amended, proved): normalization is idempotent for every kind other
than `enum-value`, and for `enum-value` whenever the once-normalized term
does not itself begin or end with a double-quote character. -/
theorem normalizeTerm_idempotent_unless_edge_quote (term kind : String)
    (h : kind = "enum-value" → noEdgeQuote (normalizeTerm term kind)) :
    normalizeTerm (normalizeTerm term kind) kind = normalizeTerm term kind := by
  by_cases hk : kind = "enum-value"
  · obtain ⟨h1, h2⟩ := h hk
    subst hk
    simp only [normalizeTerm, if_pos] at *
    exact enumValueStrip_eq_self _ h1 h2
  · by_cases hm : kind = "method"
    · subst hm
      by_cases hp : endsWithParen term = true
      · simp [normalizeTerm, hp]
      · have hterm : normalizeTerm term "method" = term ++ "()" := by
          simp [normalizeTerm, hp]
        rw [hterm]
        simp [normalizeTerm, endsWithParen_append_parens]
    · simp [normalizeTerm, hk, hm]

/-- C3 (witness): the amended idempotence theorem applied at the concrete
enum value `"foo"`. -/
theorem normalizeTerm_idempotent_unless_edge_quote_witness :
    normalizeTerm (normalizeTerm "\"foo\"" "enum-value") "enum-value" =
      normalizeTerm "\"foo\"" "enum-value" :=
  normalizeTerm_idempotent_unless_edge_quote "\"foo\"" "enum-value"
    (fun _ => ⟨by decide, by decide⟩)

/-- C4 (counterexample): normalization can collapse a non-empty term to the
empty string: the enum-value term consisting of a single double-quote
character normalizes to the empty string. -/
theorem normalizeTerm_empties_nonempty_term :
    normalizeTerm "\"" "enum-value" = "" ∧ "\"" ≠ "" := by
  decide

/-- C4 (amended, proved): the normalized term is empty only when the input
term was already empty, or the kind is `enum-value` and the input consisted
of one or two double-quote characters. -/
theorem normalizeTerm_empty_cases (term kind : String)
    (h : normalizeTerm term kind = "") :
    term = "" ∨ (kind = "enum-value" ∧ (term = "\"" ∨ term = "\"\"")) := by
  by_cases hk : kind = "enum-value"
  · subst hk
    simp only [normalizeTerm, if_pos] at h
    have hdata : dropTrailingQuote (dropLeadingQuote term.data) = [] :=
      congrArg String.data h
    rcases strip_eq_nil _ hdata with h0 | h1 | h2
    · exact Or.inl (String.ext h0)
    · exact Or.inr ⟨rfl, Or.inl (String.ext (by rw [h1]))⟩
    · exact Or.inr ⟨rfl, Or.inr (String.ext (by rw [h2]))⟩
  · by_cases hm : kind = "method"
    · subst hm
      exfalso
      by_cases hp : endsWithParen term = true
      · simp [normalizeTerm, hp] at h
        rw [h] at hp
        exact absurd hp (by decide)
      · simp [normalizeTerm, hp] at h
        have hdata := congrArg String.data h
        rw [String.data_append] at hdata
        simp at hdata
    · exact Or.inl (by simpa [normalizeTerm, hk, hm] using h)

/-- C4 (witness): the amended emptiness theorem applied at the concrete
input `"` of kind `enum-value`. -/
theorem normalizeTerm_empty_cases_witness :
    "\"" = "" ∨ ("enum-value" = "enum-value" ∧ ("\"" = "\"" ∨ "\"" = "\"\"")) :=
  normalizeTerm_empty_cases "\"" "enum-value" (by decide)

/-! ## Claims about the error sink and the driver -/

/-- Folding the driver step never changes the error component: no iteration
appends to the sink, because `parseData` returns it untouched. -/
theorem foldl_driverStep_errs (supportedTypes cssTypesInput : String → Bool)
    (l : List DfnSource) (acc : TermMap × SpecMap × List String) :
    (l.foldl (driverStep supportedTypes cssTypesInput) acc).2.2 = acc.2.2 := by
  induction l generalizing acc with
  | nil => rfl
  | cons src rest ih =>
    rw [List.foldl_cons, ih]
    rfl

/-- C10 (confirmed): the Parser leaves the error-sink list it receives
unchanged -- `parseData` returns the sink exactly as given -- and therefore
the accumulated URI-error list after processing any corpus equals the empty
list it started as. -/
theorem parseData_preserves_errorSink :
    (∀ (supportedTypes cssTypesInput : String → Bool) (source : DfnSource)
        (errorURIs : List String),
      (parseData supportedTypes cssTypesInput source errorURIs).2 = errorURIs) ∧
    (∀ (supportedTypes cssTypesInput : String → Bool)
        (sources : List DfnSource),
      (processSources supportedTypes cssTypesInput sources).2.2 = []) := by
  constructor
  · intro st ct src errs
    rfl
  · intro st ct sources
    exact foldl_driverStep_errs st ct sources _

/-- C2 (confirmed): the driver writes the three artifacts exactly when the
accumulated error list is empty after all sources are processed, and aborts
fatally (non-zero exit, nothing written) whenever the list is nonempty;
`runPipeline` is precisely this check applied to the accumulated state. -/
theorem finishRun_all_or_nothing :
    (∀ (errs : List String) (t : TermMap) (s : SpecMap) (m : SpecMetaMap),
      (finishRun errs t s m = RunOutcome.wrote t s m ↔ errs = []) ∧
      (errs ≠ [] → finishRun errs t s m = RunOutcome.fatal errs)) ∧
    (∀ (supportedTypes cssTypesInput : String → Bool)
        (sources : List DfnSource) (m : SpecMetaMap),
      runPipeline supportedTypes cssTypesInput sources m =
        finishRun (processSources supportedTypes cssTypesInput sources).2.2
          (processSources supportedTypes cssTypesInput sources).1
          (processSources supportedTypes cssTypesInput sources).2.1 m) := by
  constructor
  · intro errs t s m
    constructor
    · constructor
      · intro hw
        by_contra hne
        have hlen : errs.length ≠ 0 := by
          simpa [List.length_eq_zero] using hne
        unfold finishRun at hw
        rw [if_pos hlen] at hw
        exact RunOutcome.noConfusion hw
      · intro he
        subst he
        simp [finishRun]
    · intro hne
      have hlen : errs.length ≠ 0 := by
        simpa [List.length_eq_zero] using hne
      simp [finishRun, hlen]
  · intro st ct sources m
    rfl

/-- C2 (witness): a run reaching the final check with the nonempty error
list `["boom"]` aborts fatally. -/
theorem finishRun_all_or_nothing_witness :
    (["boom"] : List String) ≠ [] ∧
    finishRun ["boom"] (fun _ => []) (fun _ => []) (fun _ => none) =
      RunOutcome.fatal ["boom"] :=
  ⟨by decide,
    (finishRun_all_or_nothing.1 ["boom"] (fun _ => []) (fun _ => [])
        (fun _ => none)).2 (by decide)⟩

/-- C1 (code bug, evaluation): `mapDefinition` never records a URI-fix
failure.  For a definition whose `href` (`#event`) does not start with the
spec's base URL, the mapper silently keeps the unmodified href and
`parseData` returns the error sink still empty, although the function's own
documentation (`@param errorURIs list of uri where fixUri fails`) and the
fatal check in `main` expect such failures to be pushed there.  Moreover,
when the base URL occurs in the middle of the href, `replace` deletes that
occurrence instead of leaving the href unmodified. -/
theorem mapDefinition_uri_bug_eval :
    (mapDefinition (fun _ => false)
        { id := "event", href := "#event", linkingText := ["Event"],
          localLinkingText := [], type := "interface", «for» := [],
          access := "public", informative := false, heading := (),
          definedIn := "prose" }
        "Event" "dom" "dom" "https://d.org/").uri = "#event" ∧
    (parseData (fun _ => true) (fun _ => false)
        { series := "dom", spec := "dom", url := "https://d.org/",
          dfns := [{ id := "event", href := "#event",
                     linkingText := ["Event"], localLinkingText := [],
                     type := "interface", «for» := [], access := "public",
                     informative := false, heading := (),
                     definedIn := "prose" }] }
        []).2 = [] ∧
    (mapDefinition (fun _ => false)
        { id := "x", href := "https://m.ex/https://d.org/x",
          linkingText := ["x"], localLinkingText := [], type := "interface",
          «for» := [], access := "public", informative := false,
          heading := (), definedIn := "prose" }
        "x" "dom" "dom" "https://d.org/").uri = "https://m.ex/x" := by
  refine ⟨?_, rfl, ?_⟩ <;> decide

/-! ## Claims about the Spec Aggregator -/

/-- Membership in a `pushKey` update. -/
theorem pushKey_apply {α : Type} (m : String → List α) (k0 : String) (v : α)
    (k : String) :
    pushKey m k0 v k = if k = k0 then m k ++ [v] else m k := rfl

/-- C9 (counterexample): the Spec Aggregator does not key by the per-spec
shortname.  A record mapped for spec `svg2` of series `svg` is appended
under the series key `svg`, the key `svg2` stays absent, and the stored
entry keeps the per-spec shortname in its `spec` field rather than having it
stripped. -/
theorem updateDataBySpec_not_keyed_by_spec :
    updateDataBySpec
        [mapDefinition (fun _ => false)
          { id := "TermBaseline", href := "https://s.org/t#b",
            linkingText := ["baseline"], localLinkingText := [],
            type := "dfn", «for» := [], access := "public",
            informative := false, heading := (), definedIn := "prose" }
          "baseline" "svg2" "svg" "https://s.org/"]
        (fun _ => []) "svg2" = [] ∧
    (mapDefinition (fun _ => false)
        { id := "TermBaseline", href := "https://s.org/t#b",
          linkingText := ["baseline"], localLinkingText := [],
          type := "dfn", «for» := [], access := "public",
          informative := false, heading := (), definedIn := "prose" }
        "baseline" "svg2" "svg" "https://s.org/").spec = "svg2" ∧
    updateDataBySpec
        [mapDefinition (fun _ => false)
          { id := "TermBaseline", href := "https://s.org/t#b",
            linkingText := ["baseline"], localLinkingText := [],
            type := "dfn", «for» := [], access := "public",
            informative := false, heading := (), definedIn := "prose" }
          "baseline" "svg2" "svg" "https://s.org/"]
        (fun _ => []) "svg" =
      [{ term := "baseline", type := "dfn", spec := "svg2",
         status := "current", uri := "t#b", normative := true,
         «for» := none }] := by
  refine ⟨?_, rfl, ?_⟩ <;> decide

/-- C9 (amended, proved): the Spec Aggregator appends, for each record, the
record's fields stripped of the series shortname and the export flag
(`stripSpec`) to the list under the record's `shortname` field -- the series
shortname, not the per-spec shortname -- creating the list if absent, with
exactly one spec-index entry per record and in input order. -/
theorem updateDataBySpec_characterization :
    ∀ (terms : List ParsedEntry) (m : SpecMap) (k : String),
      updateDataBySpec terms m k =
        m k ++ (terms.filter (fun r => r.shortname = k)).map stripSpec := by
  intro terms
  induction terms with
  | nil => intro m k; simp [updateDataBySpec]
  | cons r rest ih =>
    intro m k
    have hstep : updateDataBySpec (r :: rest) m = updateDataBySpec rest (specStep m r) := rfl
    rw [hstep, ih]
    by_cases h : r.shortname = k
    · simp [specStep, pushKey, h, List.filter_cons]
    · have h2 : ¬ (k = r.shortname) := fun hk => h hk.symm
      simp [specStep, pushKey, h, h2, List.filter_cons]

/-! ## Claims about the Term Aggregator -/

theorem lastIdxOf_lt_length (c : Char) (l : List Char) (p : Nat)
    (h : lastIdxOf c l = some p) : p < l.length := by
  induction l generalizing p with
  | nil => simp [lastIdxOf] at h
  | cons a rest ih =>
    unfold lastIdxOf at h
    cases hrec : lastIdxOf c rest with
    | some k =>
      rw [hrec] at h
      injection h with h'
      have := ih k hrec
      simp [← h']
      omega
    | none =>
      rw [hrec] at h
      by_cases hac : a = c
      · simp [hac] at h
        simp [← h]
      · simp [hac] at h

theorem consMatch_some (c : Char) (o : Option (List Char × List Char))
    (b a : List Char) (h : consMatch c o = some (b, a)) :
    ∃ b', b = c :: b' ∧ o = some (b', a) := by
  cases o with
  | none => simp [consMatch] at h
  | some pair =>
    obtain ⟨b0, a0⟩ := pair
    simp [consMatch] at h
    exact ⟨b0, h.1.symm, by rw [h.2]⟩

/-- A successful match of `/\(.+\)/` consumes at least one character more
than its two-character replacement, so replacing shortens the string. -/
theorem findMethodMatch_shrinks (l : List Char) :
    ∀ b a, findMethodMatch l = some (b, a) →
      b.length + 2 + a.length < l.length := by
  induction l with
  | nil => intro b a h; simp [findMethodMatch] at h
  | cons c rest ih =>
    intro b a h
    unfold findMethodMatch at h
    have hnext : consMatch c (findMethodMatch rest) = some (b, a) →
        b.length + 2 + a.length < (c :: rest).length := by
      intro hcm
      obtain ⟨b', rfl, ho⟩ := consMatch_some _ _ _ _ hcm
      have := ih b' a ho
      simp
      omega
    by_cases hc : c = '('
    · rw [if_pos hc] at h
      cases hrun : lastIdxOf ')' (rest.takeWhile (fun d => !isLineTerminator d)) with
      | some p =>
        rw [hrun] at h
        dsimp only at h
        by_cases hp : 1 ≤ p
        · rw [if_pos hp] at h
          injection h with h'
          have hb : b = [] := (congrArg Prod.fst h').symm
          have ha : a = rest.drop (p + 1) := (congrArg Prod.snd h').symm
          subst hb
          subst ha
          have hlt := lastIdxOf_lt_length _ _ _ hrun
          have htw : (rest.takeWhile (fun d => !isLineTerminator d)).length ≤
              rest.length := (List.takeWhile_sublist _).length_le
          simp [List.length_drop]
          omega
        · rw [if_neg hp] at h
          exact hnext h
      | none =>
        rw [hrun] at h
        dsimp only at h
        exact hnext h
    · rw [if_neg hc] at h
      exact hnext h

/-- Collapsing a present argument list strictly shortens the term, so the
bare-name key always differs from the exact-term key. -/
theorem methodReplaceArgs_ne (t : String) (h : methodReTest t = true) :
    methodReplaceArgs t ≠ t := by
  unfold methodReTest at h
  unfold methodReplaceArgs
  cases hm : findMethodMatch t.data with
  | none => rw [hm] at h; simp at h
  | some pair =>
    obtain ⟨b, a⟩ := pair
    intro heq
    have hlen := findMethodMatch_shrinks _ _ _ hm
    have hdata : b ++ '(' :: ')' :: a = t.data := congrArg String.data heq
    have hlen2 : (b ++ '(' :: ')' :: a).length = t.data.length := by rw [hdata]
    rw [List.length_append] at hlen2
    simp only [List.length_cons] at hlen2
    omega

/-- C8 (confirmed): a record of kind `method` whose term matches
`/\(.+\)/` is entered in the term index under both the exact term and the
term with its argument list collapsed to `()`, with the same stripped
occurrence data appended under each, and no other key changes; every other
record (non-method kind, or method without an argument list) is entered
under exactly its one term key. -/
theorem updateDataByTerm_method_fanout (r : ParsedEntry) (m : TermMap) :
    (r.type = "method" → methodReTest r.term = true →
      updateDataByTerm [r] m r.term = m r.term ++ [stripTerm r] ∧
      updateDataByTerm [r] m (methodReplaceArgs r.term) =
        m (methodReplaceArgs r.term) ++ [stripTerm r] ∧
      (∀ k, k ≠ r.term → k ≠ methodReplaceArgs r.term →
        updateDataByTerm [r] m k = m k)) ∧
    (¬ (r.type = "method" ∧ methodReTest r.term = true) →
      updateDataByTerm [r] m r.term = m r.term ++ [stripTerm r] ∧
      (∀ k, k ≠ r.term → updateDataByTerm [r] m k = m k)) := by
  have hone : updateDataByTerm [r] m = termStep m r := rfl
  constructor
  · intro hty hre
    have hcond : (r.type == "method" && methodReTest r.term) = true := by
      rw [hre, hty]
      rfl
    have hne : methodReplaceArgs r.term ≠ r.term := methodReplaceArgs_ne _ hre
    refine ⟨?_, ?_, ?_⟩
    · rw [hone]
      unfold termStep
      rw [hcond]
      simp only [if_pos]
      rw [pushKey_apply, if_neg (fun hh => hne hh.symm), pushKey_apply,
        if_pos rfl]
    · rw [hone]
      unfold termStep
      rw [hcond]
      simp only [if_pos]
      rw [pushKey_apply, if_pos rfl, pushKey_apply, if_neg hne]
    · intro k hk1 hk2
      rw [hone]
      unfold termStep
      rw [hcond]
      simp only [if_pos]
      rw [pushKey_apply, if_neg hk2, pushKey_apply, if_neg hk1]
  · intro hnot
    have hcond : (r.type == "method" && methodReTest r.term) = false := by
      by_cases hty : r.type = "method"
      · have hre : methodReTest r.term = false := by
          by_cases hre' : methodReTest r.term = true
          · exact absurd ⟨hty, hre'⟩ hnot
          · exact Bool.eq_false_iff.mpr hre'
        rw [hre]
        simp
      · have : (r.type == "method") = false := by
          exact beq_eq_false_iff_ne.mpr hty
        rw [this]
        simp
    constructor
    · rw [hone]
      unfold termStep
      rw [hcond]
      simp only [Bool.false_eq_true, if_neg, if_false]
      rw [pushKey_apply, if_pos rfl]
    · intro k hk
      rw [hone]
      unfold termStep
      rw [hcond]
      simp only [Bool.false_eq_true, if_neg, if_false]
      rw [pushKey_apply, if_neg hk]

/-- C8 (witness): the fan-out theorem applied to a concrete method record
with term `foo(a, b)`: the empty index gains the stripped entry under both
`foo(a, b)` and `foo()`. -/
theorem updateDataByTerm_method_fanout_witness :
    updateDataByTerm
        [⟨"foo(a, b)", true, "method", "dom", "dom", "current", "#foo", true,
          none⟩]
        (fun _ => []) "foo(a, b)" =
      [stripTerm ⟨"foo(a, b)", true, "method", "dom", "dom", "current",
        "#foo", true, none⟩] ∧
    updateDataByTerm
        [⟨"foo(a, b)", true, "method", "dom", "dom", "current", "#foo", true,
          none⟩]
        (fun _ => []) "foo()" =
      [stripTerm ⟨"foo(a, b)", true, "method", "dom", "dom", "current",
        "#foo", true, none⟩] := by
  constructor
  · have h :=
      ((updateDataByTerm_method_fanout
          ⟨"foo(a, b)", true, "method", "dom", "dom", "current", "#foo", true,
            none⟩
          (fun _ => [])).1 rfl (by decide)).1
    simpa using h
  · have h :=
      ((updateDataByTerm_method_fanout
          ⟨"foo(a, b)", true, "method", "dom", "dom", "current", "#foo", true,
            none⟩
          (fun _ => [])).1 rfl (by decide)).2.1
    have e : methodReplaceArgs "foo(a, b)" = "foo()" := by decide
    rw [e] at h
    simpa using h

/-! ## Claims about the Source Parser -/

theorem mem_uniqAux {α : Type} [DecidableEq α] (seen l : List α) (a : α) :
    a ∈ uniqAux seen l ↔ a ∈ l ∧ a ∉ seen := by
  induction l generalizing seen with
  | nil => simp [uniqAux]
  | cons b rest ih =>
    unfold uniqAux
    by_cases hb : b ∈ seen
    · rw [if_pos hb, ih]
      constructor
      · rintro ⟨h1, h2⟩
        exact ⟨List.mem_cons_of_mem _ h1, h2⟩
      · rintro ⟨h1, h2⟩
        rcases List.mem_cons.mp h1 with rfl | h1'
        · exact absurd hb h2
        · exact ⟨h1', h2⟩
    · rw [if_neg hb]
      rw [List.mem_cons, ih]
      constructor
      · rintro (rfl | ⟨h1, h2⟩)
        · exact ⟨List.mem_cons_self _ _, hb⟩
        · refine ⟨List.mem_cons_of_mem _ h1, ?_⟩
          intro hs
          exact h2 (List.mem_cons_of_mem _ hs)
      · rintro ⟨h1, h2⟩
        rcases List.mem_cons.mp h1 with rfl | h1'
        · exact Or.inl rfl
        · by_cases hab : a = b
          · exact Or.inl hab
          · refine Or.inr ⟨h1', ?_⟩
            intro hs
            rcases List.mem_cons.mp hs with rfl | hs'
            · exact hab rfl
            · exact h2 hs'

theorem nodup_uniqAux {α : Type} [DecidableEq α] (seen l : List α) :
    (uniqAux seen l).Nodup := by
  induction l generalizing seen with
  | nil => simp [uniqAux]
  | cons b rest ih =>
    unfold uniqAux
    by_cases hb : b ∈ seen
    · rw [if_pos hb]
      exact ih seen
    · rw [if_neg hb]
      refine List.nodup_cons.mpr ⟨?_, ih (b :: seen)⟩
      intro hmem
      exact ((mem_uniqAux _ _ _).mp hmem).2 (List.mem_cons_self _ _)

theorem uniqAux_sublist {α : Type} [DecidableEq α] (seen l : List α) :
    (uniqAux seen l).Sublist l := by
  induction l generalizing seen with
  | nil => simp [uniqAux]
  | cons b rest ih =>
    unfold uniqAux
    by_cases hb : b ∈ seen
    · rw [if_pos hb]
      exact (ih seen).cons b
    · rw [if_neg hb]
      exact (ih (b :: seen)).cons₂ b

theorem uniqAux_eq_keepFirsts {α : Type} [DecidableEq α] (l seen : List α) :
    uniqAux seen l = keepFirsts (l.filter (fun b => b ∉ seen)) := by
  induction l generalizing seen with
  | nil => simp [uniqAux, keepFirsts]
  | cons b rest ih =>
    unfold uniqAux
    by_cases hb : b ∈ seen
    · rw [if_pos hb, ih]
      have : (List.filter (fun x => decide (x ∉ seen)) (b :: rest)) =
          List.filter (fun x => decide (x ∉ seen)) rest := by
        rw [List.filter_cons]
        simp [hb]
      rw [this]
    · rw [if_neg hb, ih]
      have hcons : (List.filter (fun x => decide (x ∉ seen)) (b :: rest)) =
          b :: List.filter (fun x => decide (x ∉ seen)) rest := by
        rw [List.filter_cons]
        simp [hb]
      rw [hcons]
      rw [keepFirsts]
      congr 1
      rw [List.filter_filter]
      have hfun : (fun x => decide (x ≠ b) && decide (x ∉ seen)) =
          (fun x => decide (x ∉ b :: seen)) := by
        funext x
        by_cases hx : x = b <;> by_cases hs : x ∈ seen <;> simp [hx, hs]
      rw [hfun]

/-- C7 (confirmed): the Parser deduplicates by full structural equality
keeping each first occurrence in order: its output is exactly the
first-occurrence deduplication of the filtered record list, is duplicate
free (each record occurs at most once), preserves the source order (it is a
sublist of the filtered list), and keeps exactly the set of filtered
records, so feeding the same (definition, alias) pair twice yields one
output record. -/
theorem parseData_dedup :
    ∀ (supportedTypes cssTypesInput : String → Bool) (source : DfnSource)
      (errorURIs : List String),
      (parseData supportedTypes cssTypesInput source errorURIs).1 =
        keepFirsts (filteredRecords supportedTypes cssTypesInput source) ∧
      ((parseData supportedTypes cssTypesInput source errorURIs).1).Nodup ∧
      ((parseData supportedTypes cssTypesInput source errorURIs).1).Sublist
        (filteredRecords supportedTypes cssTypesInput source) ∧
      (∀ r, r ∈ (parseData supportedTypes cssTypesInput source errorURIs).1 ↔
        r ∈ filteredRecords supportedTypes cssTypesInput source) ∧
      (∀ r,
        ((parseData supportedTypes cssTypesInput source errorURIs).1).count r
          ≤ 1) := by
  intro st ct source errs
  refine ⟨?_, ?_, ?_, ?_, ?_⟩
  · show uniq (filteredRecords st ct source) = _
    unfold uniq
    rw [uniqAux_eq_keepFirsts]
    congr 1
    simp
  · exact nodup_uniqAux _ _
  · exact uniqAux_sublist _ _
  · intro r
    show r ∈ uniqAux [] _ ↔ _
    rw [mem_uniqAux]
    simp
  · intro r
    exact List.nodup_iff_count_le_one.mp (nodup_uniqAux _ _) r

/-! ## Claims about filtering and provenance of index entries -/

theorem mem_pushKey {α : Type} (m : String → List α) (k0 : String) (v : α)
    (k : String) (e : α) (h : e ∈ pushKey m k0 v k) : e ∈ m k ∨ e = v := by
  rw [pushKey_apply] at h
  by_cases hk : k = k0
  · rw [if_pos hk] at h
    rcases List.mem_append.mp h with h1 | h2
    · exact Or.inl h1
    · exact Or.inr (List.mem_singleton.mp h2)
  · rw [if_neg hk] at h
    exact Or.inl h

/-- Zeta-reduced form of `termStep`. -/
theorem termStep_eq (m : TermMap) (r : ParsedEntry) :
    termStep m r =
      if r.type == "method" && methodReTest r.term then
        pushKey (pushKey m r.term (stripTerm r)) (methodReplaceArgs r.term)
          (stripTerm r)
      else pushKey m r.term (stripTerm r) := rfl

theorem mem_termStep (m : TermMap) (r : ParsedEntry) (k : String)
    (e : TermEntry) (h : e ∈ termStep m r k) : e ∈ m k ∨ e = stripTerm r := by
  rw [termStep_eq] at h
  by_cases hc : (r.type == "method" && methodReTest r.term) = true
  · rw [if_pos hc] at h
    rcases mem_pushKey _ _ _ _ _ h with h1 | h2
    · exact mem_pushKey _ _ _ _ _ h1
    · exact Or.inr h2
  · rw [if_neg hc] at h
    exact mem_pushKey _ _ _ _ _ h

theorem mem_updateDataByTerm (terms : List ParsedEntry) (m : TermMap)
    (k : String) (e : TermEntry) (h : e ∈ updateDataByTerm terms m k) :
    e ∈ m k ∨ ∃ r, r ∈ terms ∧ e = stripTerm r := by
  induction terms generalizing m with
  | nil => exact Or.inl h
  | cons r rest ih =>
    have hstep : updateDataByTerm (r :: rest) m =
        updateDataByTerm rest (termStep m r) := rfl
    rw [hstep] at h
    rcases ih (termStep m r) h with h1 | ⟨r', hr', he⟩
    · rcases mem_termStep _ _ _ _ h1 with h2 | h3
      · exact Or.inl h2
      · exact Or.inr ⟨r, List.mem_cons_self _ _, h3⟩
    · exact Or.inr ⟨r', List.mem_cons_of_mem _ hr', he⟩

theorem mem_updateDataBySpec (terms : List ParsedEntry) (m : SpecMap)
    (k : String) (e : SpecEntry) (h : e ∈ updateDataBySpec terms m k) :
    e ∈ m k ∨ ∃ r, r ∈ terms ∧ e = stripSpec r := by
  induction terms generalizing m with
  | nil => exact Or.inl h
  | cons r rest ih =>
    have hstep : updateDataBySpec (r :: rest) m =
        updateDataBySpec rest (specStep m r) := rfl
    rw [hstep] at h
    rcases ih (specStep m r) h with h1 | ⟨r', hr', he⟩
    · rcases mem_pushKey _ _ _ _ _ h1 with h2 | h3
      · exact Or.inl h2
      · exact Or.inr ⟨r, List.mem_cons_self _ _, h3⟩
    · exact Or.inr ⟨r', List.mem_cons_of_mem _ hr', he⟩

/-- Every record surviving the Parser comes from a public, supported-kind
(definition, alias) pair of the given source. -/
theorem mem_parseData (supportedTypes cssTypesInput : String → Bool)
    (source : DfnSource) (errorURIs : List String) (r : ParsedEntry)
    (h : r ∈ (parseData supportedTypes cssTypesInput source errorURIs).1) :
    ∃ dfn al, dfn ∈ source.dfns ∧ al ∈ dfn.linkingText ∧
      dfn.access = "public" ∧
      supportedTypes (remapKind cssTypesInput dfn.type) = true ∧
      r = mapDefinition cssTypesInput dfn al source.spec source.series
        source.url := by
  have h1 : r ∈ filteredRecords supportedTypes cssTypesInput source := by
    have h0 : r ∈ uniqAux []
        (filteredRecords supportedTypes cssTypesInput source) := h
    exact ((mem_uniqAux _ _ _).mp h0).1
  rw [filteredRecords, List.mem_filter] at h1
  obtain ⟨hmem, hflt⟩ := h1
  rw [Bool.and_eq_true] at hflt
  obtain ⟨hexp, hsupp⟩ := hflt
  rw [mappedRecords, List.mem_flatMap] at hmem
  obtain ⟨dfn, hdfn, hmem2⟩ := hmem
  rw [List.mem_map] at hmem2
  obtain ⟨al, halias, hmap⟩ := hmem2
  subst hmap
  refine ⟨dfn, al, hdfn, halias, ?_, hsupp, rfl⟩
  exact eq_of_beq hexp

theorem mem_foldl_driverStep_byTerm (supportedTypes cssTypesInput : String → Bool)
    (l : List DfnSource) (acc : TermMap × SpecMap × List String) (k : String)
    (e : TermEntry)
    (h : e ∈ (l.foldl (driverStep supportedTypes cssTypesInput) acc).1 k) :
    e ∈ acc.1 k ∨ ∃ source, source ∈ l ∧ ∃ rec,
      rec ∈ uniqAux [] (filteredRecords supportedTypes cssTypesInput source) ∧
      e = stripTerm rec := by
  induction l generalizing acc with
  | nil => exact Or.inl h
  | cons src rest ih =>
    rw [List.foldl_cons] at h
    rcases ih _ h with h1 | ⟨source, hs, rec, hrec, he⟩
    · rcases mem_updateDataByTerm
          (uniqAux [] (filteredRecords supportedTypes cssTypesInput src))
          acc.1 k e h1 with h2 | ⟨rec, hrec, he⟩
      · exact Or.inl h2
      · exact Or.inr ⟨src, List.mem_cons_self _ _, rec, hrec, he⟩
    · exact Or.inr ⟨source, List.mem_cons_of_mem _ hs, rec, hrec, he⟩

theorem mem_foldl_driverStep_bySpec (supportedTypes cssTypesInput : String → Bool)
    (l : List DfnSource) (acc : TermMap × SpecMap × List String) (k : String)
    (e : SpecEntry)
    (h : e ∈ (l.foldl (driverStep supportedTypes cssTypesInput) acc).2.1 k) :
    e ∈ acc.2.1 k ∨ ∃ source, source ∈ l ∧ ∃ rec,
      rec ∈ uniqAux [] (filteredRecords supportedTypes cssTypesInput source) ∧
      e = stripSpec rec := by
  induction l generalizing acc with
  | nil => exact Or.inl h
  | cons src rest ih =>
    rw [List.foldl_cons] at h
    rcases ih _ h with h1 | ⟨source, hs, rec, hrec, he⟩
    · rcases mem_updateDataBySpec
          (uniqAux [] (filteredRecords supportedTypes cssTypesInput src))
          acc.2.1 k e h1 with h2 | ⟨rec, hrec, he⟩
      · exact Or.inl h2
      · exact Or.inr ⟨src, List.mem_cons_self _ _, rec, hrec, he⟩
    · exact Or.inr ⟨source, List.mem_cons_of_mem _ hs, rec, hrec, he⟩

/-- C6 (confirmed): every entry reachable in either output index originates
from a (definition, alias) pair whose definition has `access = "public"` and
whose css-remapped kind is in the supported-kind allow-list, through the
Mapper's record and the one export/kind filter applied between mapping and
aggregation; this holds for every corpus and every allow-list pair. -/
theorem index_entries_exported_supported :
    ∀ (supportedTypes cssTypesInput : String → Bool)
      (sources : List DfnSource) (k : String),
      (∀ e, e ∈ (processSources supportedTypes cssTypesInput sources).1 k →
        ∃ source dfn al, source ∈ sources ∧ dfn ∈ source.dfns ∧
          al ∈ dfn.linkingText ∧ dfn.access = "public" ∧
          supportedTypes (remapKind cssTypesInput dfn.type) = true ∧
          e = stripTerm (mapDefinition cssTypesInput dfn al source.spec
            source.series source.url)) ∧
      (∀ e, e ∈ (processSources supportedTypes cssTypesInput sources).2.1 k →
        ∃ source dfn al, source ∈ sources ∧ dfn ∈ source.dfns ∧
          al ∈ dfn.linkingText ∧ dfn.access = "public" ∧
          supportedTypes (remapKind cssTypesInput dfn.type) = true ∧
          e = stripSpec (mapDefinition cssTypesInput dfn al source.spec
            source.series source.url)) := by
  intro st ct sources k
  constructor
  · intro e he
    rcases mem_foldl_driverStep_byTerm st ct sources _ k e he with h0 | h1
    · exact absurd h0 (List.not_mem_nil e)
    · obtain ⟨source, hs, rec, hrec, he'⟩ := h1
      obtain ⟨dfn, al, hdfn, halias, hacc, hsupp, hmap⟩ :=
        mem_parseData st ct source [] rec hrec
      subst hmap
      exact ⟨source, dfn, al, hs, hdfn, halias, hacc, hsupp, he'⟩
  · intro e he
    rcases mem_foldl_driverStep_bySpec st ct sources _ k e he with h0 | h1
    · exact absurd h0 (List.not_mem_nil e)
    · obtain ⟨source, hs, rec, hrec, he'⟩ := h1
      obtain ⟨dfn, al, hdfn, halias, hacc, hsupp, hmap⟩ :=
        mem_parseData st ct source [] rec hrec
      subst hmap
      exact ⟨source, dfn, al, hs, hdfn, halias, hacc, hsupp, he'⟩

/-- C6 (witness): the provenance theorem applied to a concrete one-source
corpus whose single definition is public and of supported kind
`interface`; the entry found under the term key `Event` traces back to that
definition. -/
theorem index_entries_exported_supported_witness :
    ∃ source dfn al,
      source ∈
        [({ series := "dom", spec := "dom", url := "https://d.org/",
            dfns := [{ id := "event", href := "https://d.org/#event",
                       linkingText := ["Event"], localLinkingText := [],
                       type := "interface", «for» := [], access := "public",
                       informative := false, heading := (),
                       definedIn := "prose" }] } : DfnSource)] ∧
      dfn ∈ source.dfns ∧ al ∈ dfn.linkingText ∧ dfn.access = "public" ∧
      (remapKind (fun _ => false) dfn.type == "interface") = true ∧
      stripTerm (mapDefinition (fun _ => false)
          { id := "event", href := "https://d.org/#event",
            linkingText := ["Event"], localLinkingText := [],
            type := "interface", «for» := [], access := "public",
            informative := false, heading := (), definedIn := "prose" }
          "Event" "dom" "dom" "https://d.org/") =
        stripTerm (mapDefinition (fun _ => false) dfn al source.spec
          source.series source.url) :=
  (index_entries_exported_supported (fun t => t == "interface")
      (fun _ => false)
      [{ series := "dom", spec := "dom", url := "https://d.org/",
         dfns := [{ id := "event", href := "https://d.org/#event",
                    linkingText := ["Event"], localLinkingText := [],
                    type := "interface", «for» := [], access := "public",
                    informative := false, heading := (),
                    definedIn := "prose" }] }]
      "Event").1
    (stripTerm (mapDefinition (fun _ => false)
        { id := "event", href := "https://d.org/#event",
          linkingText := ["Event"], localLinkingText := [],
          type := "interface", «for» := [], access := "public",
          informative := false, heading := (), definedIn := "prose" }
        "Event" "dom" "dom" "https://d.org/"))
    (by decide)
